import Mathlib

/-!
Verification development for a versioned directed-graph database.

The embedding models the four SQLModel tables of `models.py`
(`Tree`, `TreeVersion`, `TreeNode`, `TreeEdge`) as records held in an
explicit `Store`, with the autoincrement primary keys modelled by
`next…Id` counters and timestamps by an abstract `Nat` clock.  The
`created_at` columns on node and edge rows are never read by any of
the modelled operations and are omitted.  Attached JSON data is an
opaque type parameter `α`.  Fallible operations (`create_tag`,
`restore_from_tag`, `create_new_version`, `add_edge`) return
`Except String`, the error value standing for a raised `ValueError` /
`KeyError`; an error result carries no store because the enclosing
transaction is never committed.

The traversal helpers of `example.py` / `tests.py` /
`interactive_test.py` (`find_path`, `traverse_tree`) recurse through
the edge table; they are modelled with an explicit fuel argument, and
for `find_path` the chosen fuel is proved sufficient (the DFS tracks a
visited set), while for `traverse_tree` (which tracks none) the model
lets us prove that no amount of fuel completes a cyclic traversal.
-/

namespace DbTree

/-- A node row (`TreeNode` in `models.py`): primary key, owning version id,
attached data. -/
structure TreeNode (α : Type) where
  id : Nat
  tree_version_id : Nat
  data : α
  deriving DecidableEq

/-- An edge row (`TreeEdge` in `models.py`): primary key, owning version id,
the two directed endpoints, attached data. -/
structure TreeEdge (α : Type) where
  id : Nat
  tree_version_id : Nat
  incoming_node_id : Nat
  outgoing_node_id : Nat
  data : α
  deriving DecidableEq

/-- A version row (`TreeVersion` in `models.py`). -/
structure TreeVersion where
  id : Nat
  tree_id : Nat
  parent_version_id : Option Nat
  tag : Option String
  description : Option String
  created_at : Nat
  tag_created_at : Option Nat
  deriving DecidableEq

/-- A tree row (`Tree` in `models.py`). -/
structure Tree where
  id : Nat
  name : String
  created_at : Nat
  deriving DecidableEq

/-- The database state: the four tables in insertion order, the three
autoincrement counters, and the current clock tick used for fresh
`created_at` values. -/
structure Store (α : Type) where
  trees : List Tree
  versions : List TreeVersion
  nodes : List (TreeNode α)
  edges : List (TreeEdge α)
  nextVersionId : Nat
  nextNodeId : Nat
  nextEdgeId : Nat
  now : Nat
  deriving DecidableEq

variable {α : Type}

/-- The `self.nodes` relationship of a version: all node rows whose
`tree_version_id` equals the version's id, in table order. -/
def versionNodes (s : Store α) (vid : Nat) : List (TreeNode α) :=
  s.nodes.filter (fun n => n.tree_version_id == vid)

/-- The `self.edges` relationship of a version. -/
def versionEdges (s : Store α) (vid : Nat) : List (TreeEdge α) :=
  s.edges.filter (fun e => e.tree_version_id == vid)

/-- `session.get(TreeNode, nid)`: global primary-key lookup. -/
def getNode (s : Store α) (nid : Nat) : Option (TreeNode α) :=
  s.nodes.find? (fun n => n.id == nid)

/-- One comparison step of the latest-version scan: keep whichever row has
the strictly larger `created_at` (the incumbent on ties). -/
def pickLatest (acc : Option TreeVersion) (v : TreeVersion) : Option TreeVersion :=
  match acc with
  | none => some v
  | some w => if w.created_at < v.created_at then some v else some w

/-- The row with maximal `created_at` (first such row on ties), as produced
by `order_by(created_at.desc()).first()`. -/
def latestOf (l : List TreeVersion) : Option TreeVersion :=
  l.foldl pickLatest none

/-- `Tree.get_latest_version`: the version of this tree with maximal
`created_at`. -/
def get_latest_version (s : Store α) (t : Tree) : Option TreeVersion :=
  latestOf (s.versions.filter (fun v => v.tree_id == t.id))

/-- `Tree.get_version_by_tag`: first version filtered by
`(tree_id = self.id, tag = tag)`. -/
def get_version_by_tag (s : Store α) (t : Tree) (tag : String) : Option TreeVersion :=
  (s.versions.filter (fun v => v.tree_id == t.id && v.tag == some tag)).head?

/-- `Tree.get_by_tag`: joins `Tree` with `TreeVersion` and filters on the
tag string alone — the receiving tree (`_t`) is ignored by the query. -/
def get_by_tag (s : Store α) (_t : Tree) (tag : String) : Option Tree :=
  (s.trees.filter (fun tr =>
    s.versions.any (fun v => v.tree_id == tr.id && v.tag == some tag))).head?

/-- The node-copy loop of `TreeVersion.create_new_version`: copies each
source node with a freshly allocated id into the new version and records
the `old_to_new_node` remap entry.  Returns the new rows, the remap table
and the advanced node-id counter. -/
def cloneNodes (src : List (TreeNode α)) (newVid : Nat) (nextId : Nat) :
    List (TreeNode α) × List (Nat × Nat) × Nat :=
  match src with
  | [] => ([], [], nextId)
  | n :: rest =>
    let r := cloneNodes rest newVid (nextId + 1)
    (⟨nextId, newVid, n.data⟩ :: r.1, (n.id, nextId) :: r.2.1, r.2.2)

/-- The edge-copy loop of `TreeVersion.create_new_version`: copies each
source edge with endpoints translated through the remap table, failing
(like the Python `KeyError` on `old_to_new_node[...]`) when an endpoint
is missing from the table. -/
def cloneEdges (src : List (TreeEdge α)) (newVid : Nat) (remap : List (Nat × Nat))
    (nextId : Nat) : Except String (List (TreeEdge α) × Nat) :=
  match src with
  | [] => .ok ([], nextId)
  | e :: rest =>
    match remap.lookup e.incoming_node_id with
    | none => .error ("DanglingReference: missing node " ++ toString e.incoming_node_id)
    | some a =>
      match remap.lookup e.outgoing_node_id with
      | none => .error ("DanglingReference: missing node " ++ toString e.outgoing_node_id)
      | some b =>
        match cloneEdges rest newVid remap (nextId + 1) with
        | .error msg => .error msg
        | .ok r => .ok (⟨nextId, newVid, a, b, e.data⟩ :: r.1, r.2)

/-- `TreeVersion.create_new_version`: allocates a new version row with
`parent = self`, clones every node of `self` (building the old-id to
new-id remap), then clones every edge with remapped endpoints.  On an
error nothing is committed, so no store is returned. -/
def create_new_version (s : Store α) (self : TreeVersion) (tag : Option String)
    (description : Option String) : Except String (TreeVersion × Store α) :=
  let newV : TreeVersion :=
    ⟨s.nextVersionId, self.tree_id, some self.id, tag, description, s.now, some s.now⟩
  let rn := cloneNodes (versionNodes s self.id) newV.id s.nextNodeId
  match cloneEdges (versionEdges s self.id) newV.id rn.2.1 s.nextEdgeId with
  | .error msg => .error msg
  | .ok re =>
    .ok (newV,
      { s with
        versions := s.versions ++ [newV]
        nodes := s.nodes ++ rn.1
        edges := s.edges ++ re.1
        nextVersionId := s.nextVersionId + 1
        nextNodeId := rn.2.2
        nextEdgeId := re.2 })

/-- `Tree.create_tag`: clone the latest version, keeping the new tag. -/
def create_tag (s : Store α) (t : Tree) (tag : String) (description : String) :
    Except String (TreeVersion × Store α) :=
  match get_latest_version s t with
  | none => .error "No versions exist to tag."
  | some latest => create_new_version s latest (some tag) (some description)

/-- `Tree.create_new_tree_version_from_tag`: resolve the tag in this tree,
clone with `tag = None`. -/
def create_new_tree_version_from_tag (s : Store α) (t : Tree) (tag : String) :
    Except String (TreeVersion × Store α) :=
  match get_version_by_tag s t tag with
  | none => .error ("No version with tag " ++ tag ++ " found")
  | some v => create_new_version s v none (some ("New version from tag " ++ tag))

/-- `Tree.restore_from_tag`: resolve the tag in this tree, clone with
`tag = None`. -/
def restore_from_tag (s : Store α) (t : Tree) (tag : String) :
    Except String (TreeVersion × Store α) :=
  match get_version_by_tag s t tag with
  | none => .error ("No version with tag " ++ tag ++ " found")
  | some v => create_new_version s v none (some ("Restored version from tag " ++ tag))

/-- `TreeVersion.add_node`: append a node row to this version. -/
def add_node (s : Store α) (self : TreeVersion) (data : α) : TreeNode α × Store α :=
  let n : TreeNode α := ⟨s.nextNodeId, self.id, data⟩
  (n, { s with nodes := s.nodes ++ [n], nextNodeId := s.nextNodeId + 1 })

/-- `TreeVersion.add_edge`: look both endpoint ids up by primary key; if
either is absent raise `ValueError("One or both nodes do not exist in
this version")`, else insert one edge row. -/
def add_edge (s : Store α) (self : TreeVersion) (node_id_1 node_id_2 : Nat) (data : α) :
    Except String (TreeEdge α × Store α) :=
  match getNode s node_id_1, getNode s node_id_2 with
  | some n1, some n2 =>
    let e : TreeEdge α := ⟨s.nextEdgeId, self.id, n1.id, n2.id, data⟩
    .ok (e, { s with edges := s.edges ++ [e], nextEdgeId := s.nextEdgeId + 1 })
  | _, _ => .error "One or both nodes do not exist in this version"

/-- The per-node edge query of the traversal code:
`select(TreeEdge).filter(TreeEdge.incoming_node_id == node_id)`. -/
def outEdges (edges : List (TreeEdge α)) (nodeId : Nat) : List (TreeEdge α) :=
  edges.filter (fun e => e.incoming_node_id == nodeId)

/-- The `for edge in edges: if dfs(edge.outgoing_node_id): return True`
loop of `find_path.dfs`, threading the mutable `visited` and `path`
state; when the loop falls through the current node is popped from the
path.  `next` is the recursive `dfs` call. -/
def dfsLoop (next : Nat → List Nat → List Nat → Option (Bool × List Nat × List Nat)) :
    List (TreeEdge α) → List Nat → List Nat → Option (Bool × List Nat × List Nat)
  | [], visited, path => some (false, visited, path.dropLast)
  | e :: rest, visited, path =>
    match next e.outgoing_node_id visited path with
    | none => none
    | some (true, v, p) => some (true, v, p)
    | some (false, v, p) => dfsLoop next rest v p

/-- The recursive `dfs` closure of `find_path` (identical in
`example.py`, `tests.py` and `interactive_test.py`): skip visited nodes,
push the current node, succeed on the target, otherwise explore the
outgoing edges.  `fuel` bounds the recursion depth; `find_path` supplies
a provably sufficient amount. -/
def dfs (edges : List (TreeEdge α)) (endId : Nat) :
    Nat → Nat → List Nat → List Nat → Option (Bool × List Nat × List Nat)
  | 0, _, _, _ => none
  | fuel + 1, nodeId, visited, path =>
    if nodeId ∈ visited then some (false, visited, path)
    else if nodeId = endId then some (true, nodeId :: visited, path ++ [nodeId])
    else dfsLoop (fun n v p => dfs edges endId fuel n v p)
      (outEdges edges nodeId) (nodeId :: visited) (path ++ [nodeId])

/-- `find_path`: run `dfs` from `startId` over empty visited/path state and
return the boolean result of `dfs` together with the `path` list that the
Python function returns. -/
def find_path (edges : List (TreeEdge α)) (startId endId : Nat) : Bool × List Nat :=
  match dfs edges endId (edges.length + 2) startId [] [] with
  | some r => (r.1, r.2.2)
  | none => (false, [])

/-- The `for edge in edges: traverse_tree(edge.outgoing_node_id)` loop of
`traverse_tree`, collecting the visit order. -/
def traverseLoop (next : Nat → Option (List Nat)) :
    List (TreeEdge α) → Option (List Nat)
  | [] => some []
  | e :: rest =>
    match next e.outgoing_node_id with
    | none => none
    | some l1 =>
      match traverseLoop next rest with
      | none => none
      | some l2 => some (l1 ++ l2)

/-- `traverse_tree` (`example.py`) / `traverse_tree_recursive`
(`interactive_test.py`): visit the node, then recurse into every outgoing
edge.  The source tracks no visited set, so the recursion is modelled
with fuel: `some l` means the walk completed with visit order `l`,
`none` means the given recursion budget was exhausted. -/
def traverse_tree (edges : List (TreeEdge α)) : Nat → Nat → Option (List Nat)
  | 0, _ => none
  | fuel + 1, nodeId =>
    match traverseLoop (fun n => traverse_tree edges fuel n) (outEdges edges nodeId) with
    | none => none
    | some l => some (nodeId :: l)

/-- One directed edge step: some edge of the list goes from `a` to `b`. -/
def Adj (edges : List (TreeEdge α)) (a b : Nat) : Prop :=
  ∃ e ∈ edges, e.incoming_node_id = a ∧ e.outgoing_node_id = b

/-- Reachability by following outgoing edges. -/
inductive Reaches (edges : List (TreeEdge α)) : Nat → Nat → Prop
  | refl (a : Nat) : Reaches edges a a
  | step {a b c : Nat} : Adj edges a b → Reaches edges b c → Reaches edges a c

/-- Well-formedness of a store: every primary key is below its counter
(so counter values are fresh), every row's owning version id is an
already-allocated version id, and node primary keys are unique. -/
def Store.WF (s : Store α) : Prop :=
  (∀ v ∈ s.versions, v.id < s.nextVersionId) ∧
  (∀ n ∈ s.nodes, n.id < s.nextNodeId ∧ n.tree_version_id < s.nextVersionId) ∧
  (∀ e ∈ s.edges, e.id < s.nextEdgeId ∧ e.tree_version_id < s.nextVersionId) ∧
  (s.nodes.map (fun n => n.id)).Nodup

/-- The spec's data-model invariant for one version: every edge endpoint
is the id of a node of the same version. -/
def EdgesClosed (s : Store α) (vid : Nat) : Prop :=
  ∀ e ∈ versionEdges s vid,
    (∃ n ∈ versionNodes s vid, n.id = e.incoming_node_id) ∧
    (∃ n ∈ versionNodes s vid, n.id = e.outgoing_node_id)

/-- What a completed clone of version `srcVid` of store `s` into version
`newVid` of store `s₂` looks like: node-for-node data-identical copies
under fresh ids, and edge-for-edge data-identical copies whose endpoints
are the images of the source endpoints under the remap table built while
cloning the nodes. -/
def CloneSpec (s : Store α) (srcVid : Nat) (s₂ : Store α) (newVid : Nat) : Prop :=
  List.Forall₂ (fun (src new : TreeNode α) =>
      new.data = src.data ∧ ∀ n ∈ s.nodes, n.id ≠ new.id)
    (versionNodes s srcVid) (versionNodes s₂ newVid) ∧
  List.Forall₂ (fun (src new : TreeEdge α) =>
      new.data = src.data ∧
      ((cloneNodes (versionNodes s srcVid) newVid s.nextNodeId).2.1).lookup
        src.incoming_node_id = some new.incoming_node_id ∧
      ((cloneNodes (versionNodes s srcVid) newVid s.nextNodeId).2.1).lookup
        src.outgoing_node_id = some new.outgoing_node_id)
    (versionEdges s srcVid) (versionEdges s₂ newVid)

/-! ### Concrete stores used by counterexamples and witnesses -/

/-- The sample tree of `create_sample_tree`: one tree, one version tagged
`"v1.0"`, two nodes, one edge from node 1 to node 2. -/
def sampleTree : Tree := ⟨1, "Root Configuration", 0⟩

/-- The initial version of the sample tree. -/
def sampleVersion : TreeVersion := ⟨1, 1, none, some "v1.0", some "Initial version", 0, some 0⟩

/-- The sample store after `create_sample_tree` has run. -/
def sampleStore : Store Nat :=
  { trees := [sampleTree]
    versions := [sampleVersion]
    nodes := [⟨1, 1, 10⟩, ⟨2, 1, 20⟩]
    edges := [⟨1, 1, 1, 2, 30⟩]
    nextVersionId := 2
    nextNodeId := 3
    nextEdgeId := 2
    now := 1 }

/-- Two trees that each own a version carrying the same tag string. -/
def leakTree1 : Tree := ⟨1, "T1", 0⟩

/-- The second of the two trees sharing a tag string. -/
def leakTree2 : Tree := ⟨2, "T2", 0⟩

/-- A store in which both `leakTree1` and `leakTree2` have a version tagged
`"shared"`. -/
def leakStore : Store Nat :=
  { trees := [leakTree1, leakTree2]
    versions := [⟨1, 1, none, some "shared", none, 0, some 0⟩,
                 ⟨2, 2, none, some "shared", none, 0, some 0⟩]
    nodes := []
    edges := []
    nextVersionId := 3
    nextNodeId := 1
    nextEdgeId := 1
    now := 1 }

/-- A single self-loop edge on node 1 (a one-node cycle). -/
def cycleEdges : List (TreeEdge Nat) := [⟨1, 1, 1, 1, 0⟩]

/-- A store whose only version owns an edge with endpoints that are not
node ids of that version (a dangling edge). -/
def danglingStore : Store Nat :=
  { trees := [⟨1, "T", 0⟩]
    versions := [⟨1, 1, none, none, none, 0, some 0⟩]
    nodes := []
    edges := [⟨1, 1, 7, 8, 0⟩]
    nextVersionId := 2
    nextNodeId := 1
    nextEdgeId := 2
    now := 1 }

/-! ### C7 — tag lookup scoped per tree (code bug in `Tree.get_by_tag`) -/

/-- C7: the claim that every tag lookup is scoped to the receiving tree is
violated by `Tree.get_by_tag`, which filters on the tag string alone:
invoked on `leakTree2` it returns `leakTree1`, a different tree that
merely shares the tag string. -/
theorem get_by_tag_cross_tree_leak :
    get_by_tag leakStore leakTree2 "shared" = some leakTree1 ∧ leakTree1 ≠ leakTree2 := by
  exact ⟨by decide, by decide⟩

/-! ### C3 — unguarded depth-first walk diverges on cycles (code bug) -/

/-- C3: `traverse_tree` tracks no visited set, so on the one-node cycle
`cycleEdges` the walk started at node 1 exhausts every recursion budget:
no amount of fuel completes it, i.e. the source recursion never
terminates, contradicting the claimed termination and visit-once
property. -/
theorem traverse_tree_unguarded_diverges :
    ∀ fuel, traverse_tree cycleEdges fuel 1 = none := by
  intro fuel
  induction fuel with
  | zero => rfl
  | succ f ih =>
    simp only [cycleEdges] at ih ⊢
    simp [traverse_tree, outEdges, traverseLoop, ih]

/-! ### C8 — `add_edge` validation (corrected: the error names no id) -/

/-- C8 counterexample: with nodes 1 and 2 present, `add_edge` with the
absent node 5 and with the absent node 6 raise the identical fixed
message, so the error cannot name the missing node id as the claim
states. -/
theorem add_edge_error_not_naming_id :
    add_edge sampleStore sampleVersion 5 2 0
      = .error "One or both nodes do not exist in this version" ∧
    add_edge sampleStore sampleVersion 6 2 0
      = .error "One or both nodes do not exist in this version" := by
  exact ⟨rfl, rfl⟩

/-- C8 amended: `add_edge` checks that both node ids exist (by global
primary-key lookup); if either is absent it fails with the fixed message
`"One or both nodes do not exist in this version"` — which does not name
the missing id — and inserts nothing; if both exist it inserts exactly
one edge with the given endpoints and data, leaving every other table
unchanged. -/
theorem add_edge_spec (s : Store α) (v : TreeVersion) (n1 n2 : Nat) (d : α) :
    ((getNode s n1 = none ∨ getNode s n2 = none) →
      add_edge s v n1 n2 d = .error "One or both nodes do not exist in this version") ∧
    (getNode s n1 ≠ none → getNode s n2 ≠ none →
      ∃ e s₂, add_edge s v n1 n2 d = .ok (e, s₂) ∧
        e.incoming_node_id = n1 ∧ e.outgoing_node_id = n2 ∧ e.data = d ∧
        e.tree_version_id = v.id ∧
        s₂.nodes = s.nodes ∧ s₂.versions = s.versions ∧ s₂.trees = s.trees ∧
        s₂.edges = s.edges ++ [e]) := by
  constructor
  · intro h
    cases h1 : getNode s n1 with
    | none => simp [add_edge, h1]
    | some a =>
      cases h2 : getNode s n2 with
      | none => simp [add_edge, h1, h2]
      | some b =>
        rcases h with h | h
        · exact absurd h1 (h ▸ fun hc => Option.noConfusion hc)
        · exact absurd h2 (h ▸ fun hc => Option.noConfusion hc)
  · intro h1 h2
    cases hg1 : getNode s n1 with
    | none => exact absurd hg1 h1
    | some a =>
      cases hg2 : getNode s n2 with
      | none => exact absurd hg2 h2
      | some b =>
        have ha : a.id = n1 := by
          have := List.find?_some hg1
          simpa using this
        have hb : b.id = n2 := by
          have := List.find?_some hg2
          simpa using this
        refine ⟨⟨s.nextEdgeId, v.id, a.id, b.id, d⟩,
          { s with edges := s.edges ++ [⟨s.nextEdgeId, v.id, a.id, b.id, d⟩],
                   nextEdgeId := s.nextEdgeId + 1 },
          ?_, ha, hb, rfl, rfl, rfl, rfl, rfl, rfl⟩
        simp [add_edge, hg1, hg2]

/-! ### C4 — branch-from-tag vs restore-from-tag (corrected) -/

/-- C4 counterexample: on the sample store the two operations resolve the
same tagged version but produce versions that are *not* equal in every
respect — their description fields differ. -/
theorem branch_restore_not_identical :
    (restore_from_tag sampleStore sampleTree "v1.0").toOption.map (fun r => r.1) ≠
      (create_new_tree_version_from_tag sampleStore sampleTree "v1.0").toOption.map
        (fun r => r.1) ∧
    (restore_from_tag sampleStore sampleTree "v1.0").toOption.map
        (fun r => r.1.description) = some (some "Restored version from tag v1.0") ∧
    (create_new_tree_version_from_tag sampleStore sampleTree "v1.0").toOption.map
        (fun r => r.1.description) = some (some "New version from tag v1.0") := by
  exact ⟨by decide, rfl, rfl⟩

/-- Replace every description field in an operation result by `none`. -/
def eraseDescriptions (r : Except String (TreeVersion × Store α)) :
    Except String (TreeVersion × Store α) :=
  r.map (fun p =>
    ({ p.1 with description := none },
     { p.2 with versions := p.2.versions.map (fun w => { w with description := none }) }))

/-- The result of `create_new_version` depends on the description argument
only through the description fields of the stored rows. -/
lemma eraseDescriptions_create_new_version (s : Store α) (v : TreeVersion)
    (tag : Option String) (d1 d2 : Option String) :
    eraseDescriptions (create_new_version s v tag d1)
      = eraseDescriptions (create_new_version s v tag d2) := by
  unfold create_new_version
  cases he : cloneEdges (versionEdges s v.id) s.nextVersionId
      (cloneNodes (versionNodes s v.id) s.nextVersionId s.nextNodeId).2.1 s.nextEdgeId with
  | error m => simp [he, eraseDescriptions]
  | ok re => simp [he, eraseDescriptions, Except.map]

/-- C4 amended: `create_new_tree_version_from_tag` and `restore_from_tag`
resolve the same tagged version and clone it with `tag = none`; their
results — the new version row, the parent link, the tree, and the whole
cloned node/edge state — agree in every respect except the description
text of the new version. -/
theorem branch_restore_agree_up_to_description (s : Store α) (t : Tree) (tag : String) :
    eraseDescriptions (restore_from_tag s t tag)
      = eraseDescriptions (create_new_tree_version_from_tag s t tag) := by
  unfold restore_from_tag create_new_tree_version_from_tag
  cases hv : get_version_by_tag s t tag with
  | none => rfl
  | some v => exact eraseDescriptions_create_new_version s v none _ _

/-! ### Facts about the clone loops -/

/-- Unfolding lemma for `create_new_version` with the lets and the new
version's field projections reduced. -/
lemma create_new_version_eq (s : Store α) (v : TreeVersion) (tag desc : Option String) :
    create_new_version s v tag desc =
      match cloneEdges (versionEdges s v.id) s.nextVersionId
          (cloneNodes (versionNodes s v.id) s.nextVersionId s.nextNodeId).2.1
          s.nextEdgeId with
      | .error msg => .error msg
      | .ok re =>
        .ok (⟨s.nextVersionId, v.tree_id, some v.id, tag, desc, s.now, some s.now⟩,
          { s with
            versions := s.versions ++ [⟨s.nextVersionId, v.tree_id, some v.id, tag, desc,
              s.now, some s.now⟩]
            nodes := s.nodes ++ (cloneNodes (versionNodes s v.id) s.nextVersionId
              s.nextNodeId).1
            edges := s.edges ++ re.1
            nextVersionId := s.nextVersionId + 1
            nextNodeId := (cloneNodes (versionNodes s v.id) s.nextVersionId s.nextNodeId).2.2
            nextEdgeId := re.2 }) := rfl

/-- Unfolding lemma for the cons case of the node-clone loop. -/
lemma cloneNodes_cons (n : TreeNode α) (rest : List (TreeNode α)) (vid i : Nat) :
    cloneNodes (n :: rest) vid i =
      (⟨i, vid, n.data⟩ :: (cloneNodes rest vid (i + 1)).1,
       (n.id, i) :: (cloneNodes rest vid (i + 1)).2.1,
       (cloneNodes rest vid (i + 1)).2.2) := rfl

/-- Each cloned node copies its source node's data, belongs to the new
version, and carries an id at or above the initial counter value. -/
lemma cloneNodes_forall₂ (src : List (TreeNode α)) (vid : Nat) :
    ∀ i, List.Forall₂ (fun (srcN newN : TreeNode α) =>
      newN.data = srcN.data ∧ newN.tree_version_id = vid ∧ i ≤ newN.id)
      src (cloneNodes src vid i).1 := by
  induction src with
  | nil => intro i; exact List.Forall₂.nil
  | cons n rest ih =>
    intro i
    rw [cloneNodes_cons]
    refine List.Forall₂.cons ⟨rfl, rfl, Nat.le_refl i⟩ ?_
    exact (ih (i + 1)).imp
      (fun a b h => ⟨h.1, h.2.1, Nat.le_trans (Nat.le_succ i) h.2.2⟩)

/-- Every row produced by the node-clone loop belongs to the new version. -/
lemma cloneNodes_mem (src : List (TreeNode α)) (vid : Nat) :
    ∀ i, ∀ m ∈ (cloneNodes src vid i).1, m.tree_version_id = vid := by
  induction src with
  | nil => intro i m hm; simp [cloneNodes] at hm
  | cons n rest ih =>
    intro i m hm
    rw [cloneNodes_cons] at hm
    rcases List.mem_cons.mp hm with hm | hm
    · rw [hm]
    · exact ih (i + 1) m hm

/-- The remap table has an entry for the id of every source node. -/
lemma cloneNodes_lookup_mem (src : List (TreeNode α)) (vid : Nat) {x : Nat} :
    ∀ i, x ∈ src.map (fun n => n.id) →
      ∃ y, ((cloneNodes src vid i).2.1).lookup x = some y := by
  induction src with
  | nil => intro i hx; simp at hx
  | cons n rest ih =>
    intro i hx
    rw [cloneNodes_cons]
    by_cases hxn : x = n.id
    · have hbeq : (x == n.id) = true := beq_iff_eq.mpr hxn
      exact ⟨i, by simp [List.lookup, hbeq]⟩
    · have hx' : x ∈ rest.map (fun n => n.id) := by
        simp only [List.map_cons, List.mem_cons] at hx
        tauto
      obtain ⟨y, hy⟩ := ih (i + 1) hx'
      have hbeq : (x == n.id) = false := beq_eq_false_iff_ne.mpr hxn
      exact ⟨y, by simp [List.lookup, hbeq, hy]⟩

/-- The remap table has no entry for an id that is not a source node id. -/
lemma cloneNodes_lookup_none (src : List (TreeNode α)) (vid : Nat) {x : Nat} :
    ∀ i, x ∉ src.map (fun n => n.id) →
      ((cloneNodes src vid i).2.1).lookup x = none := by
  induction src with
  | nil => intro i _; rfl
  | cons n rest ih =>
    intro i hx
    rw [cloneNodes_cons]
    simp only [List.map_cons, List.mem_cons, not_or] at hx
    have hbeq : (x == n.id) = false := beq_eq_false_iff_ne.mpr hx.1
    simp [List.lookup, hbeq, ih (i + 1) hx.2]

/-- When every endpoint of every source edge has a remap entry, the
edge-clone loop succeeds, each produced edge belongs to the new version,
copies its source edge's data, and carries the remapped endpoints. -/
lemma cloneEdges_ok (vid : Nat) (remap : List (Nat × Nat)) :
    ∀ (src : List (TreeEdge α)) (i : Nat),
      (∀ e ∈ src, (∃ y, remap.lookup e.incoming_node_id = some y) ∧
                  (∃ y, remap.lookup e.outgoing_node_id = some y)) →
      ∃ out j, cloneEdges src vid remap i = .ok (out, j) ∧
        (∀ m ∈ out, m.tree_version_id = vid) ∧
        List.Forall₂ (fun (srcE newE : TreeEdge α) =>
          newE.data = srcE.data ∧
          remap.lookup srcE.incoming_node_id = some newE.incoming_node_id ∧
          remap.lookup srcE.outgoing_node_id = some newE.outgoing_node_id) src out := by
  intro src
  induction src with
  | nil =>
    intro i _
    exact ⟨[], i, rfl, by simp, List.Forall₂.nil⟩
  | cons e rest ih =>
    intro i h
    obtain ⟨⟨a, ha⟩, ⟨b, hb⟩⟩ := h e (List.mem_cons_self e rest)
    obtain ⟨out, j, hok, hmem, hfa⟩ :=
      ih (i + 1) (fun e' he' => h e' (List.mem_cons_of_mem e he'))
    refine ⟨⟨i, vid, a, b, e.data⟩ :: out, j, ?_, ?_, ?_⟩
    · simp [cloneEdges, ha, hb, hok]
    · intro m hm
      rcases List.mem_cons.mp hm with hm | hm
      · rw [hm]
      · exact hmem m hm
    · exact List.Forall₂.cons ⟨rfl, ha, hb⟩ hfa

/-- When some source edge has an endpoint with no remap entry, the
edge-clone loop fails. -/
lemma cloneEdges_error (vid : Nat) (remap : List (Nat × Nat)) :
    ∀ (src : List (TreeEdge α)) (i : Nat),
      (∃ e ∈ src, remap.lookup e.incoming_node_id = none ∨
                  remap.lookup e.outgoing_node_id = none) →
      ∃ m, cloneEdges src vid remap i = .error m := by
  intro src
  induction src with
  | nil => intro i h; simp at h
  | cons e rest ih =>
    intro i h
    cases ha : remap.lookup e.incoming_node_id with
    | none =>
      exact ⟨"DanglingReference: missing node " ++ toString e.incoming_node_id,
        by simp [cloneEdges, ha]⟩
    | some a =>
      cases hb : remap.lookup e.outgoing_node_id with
      | none =>
        exact ⟨"DanglingReference: missing node " ++ toString e.outgoing_node_id,
          by simp [cloneEdges, ha, hb]⟩
      | some b =>
        have hrest : ∃ e' ∈ rest, remap.lookup e'.incoming_node_id = none ∨
            remap.lookup e'.outgoing_node_id = none := by
          rcases h with ⟨e', he', hcase⟩
          rcases List.mem_cons.mp he' with he' | he'
          · subst he'
            rcases hcase with hcase | hcase
            · rw [ha] at hcase; cases hcase
            · rw [hb] at hcase; cases hcase
          · exact ⟨e', he', hcase⟩
        obtain ⟨m, hm⟩ := ih (i + 1) hrest
        exact ⟨m, by simp [cloneEdges, ha, hb, hm]⟩

/-- Closed edges make the whole edge-remap phase succeed, and
`create_new_version` returns the fully determined new version and store. -/
lemma create_new_version_ok_of_closed (s : Store α) (v : TreeVersion)
    (tag desc : Option String) (hcl : EdgesClosed s v.id) :
    ∃ out j,
      cloneEdges (versionEdges s v.id) s.nextVersionId
        (cloneNodes (versionNodes s v.id) s.nextVersionId s.nextNodeId).2.1 s.nextEdgeId
        = .ok (out, j) ∧
      (∀ m ∈ out, m.tree_version_id = s.nextVersionId) ∧
      List.Forall₂ (fun (srcE newE : TreeEdge α) =>
        newE.data = srcE.data ∧
        ((cloneNodes (versionNodes s v.id) s.nextVersionId s.nextNodeId).2.1).lookup
          srcE.incoming_node_id = some newE.incoming_node_id ∧
        ((cloneNodes (versionNodes s v.id) s.nextVersionId s.nextNodeId).2.1).lookup
          srcE.outgoing_node_id = some newE.outgoing_node_id)
        (versionEdges s v.id) out ∧
      create_new_version s v tag desc = .ok
        (⟨s.nextVersionId, v.tree_id, some v.id, tag, desc, s.now, some s.now⟩,
         { s with
           versions := s.versions ++ [⟨s.nextVersionId, v.tree_id, some v.id, tag, desc,
             s.now, some s.now⟩]
           nodes := s.nodes ++ (cloneNodes (versionNodes s v.id) s.nextVersionId
             s.nextNodeId).1
           edges := s.edges ++ out
           nextVersionId := s.nextVersionId + 1
           nextNodeId := (cloneNodes (versionNodes s v.id) s.nextVersionId s.nextNodeId).2.2
           nextEdgeId := j }) := by
  have hlk : ∀ e ∈ versionEdges s v.id,
      (∃ y, ((cloneNodes (versionNodes s v.id) s.nextVersionId s.nextNodeId).2.1).lookup
        e.incoming_node_id = some y) ∧
      (∃ y, ((cloneNodes (versionNodes s v.id) s.nextVersionId s.nextNodeId).2.1).lookup
        e.outgoing_node_id = some y) := by
    intro e he
    obtain ⟨⟨n₁, hn₁, hid₁⟩, ⟨n₂, hn₂, hid₂⟩⟩ := hcl e he
    constructor
    · exact cloneNodes_lookup_mem (versionNodes s v.id) s.nextVersionId s.nextNodeId
        (hid₁ ▸ List.mem_map_of_mem (fun n => n.id) hn₁)
    · exact cloneNodes_lookup_mem (versionNodes s v.id) s.nextVersionId s.nextNodeId
        (hid₂ ▸ List.mem_map_of_mem (fun n => n.id) hn₂)
  obtain ⟨out, j, hok, houtmem, hfa⟩ := cloneEdges_ok s.nextVersionId
    (cloneNodes (versionNodes s v.id) s.nextVersionId s.nextNodeId).2.1
    (versionEdges s v.id) s.nextEdgeId hlk
  refine ⟨out, j, hok, houtmem, hfa, ?_⟩
  rw [create_new_version_eq, hok]

/-- Decidability of store well-formedness (all conditions quantify over
the finite tables). -/
instance (s : Store α) [DecidableEq α] : Decidable s.WF := by
  unfold Store.WF
  infer_instance

/-- Decidability of the per-version edge-closure invariant. -/
instance (s : Store α) (vid : Nat) [DecidableEq α] : Decidable (EdgesClosed s vid) := by
  unfold EdgesClosed
  infer_instance

/-- The main clone lemma: on a well-formed store, cloning a version whose
edges are closed over its own nodes succeeds, the new version row records
the requested parent, tag and description, and the new version's node and
edge tables satisfy `CloneSpec`. -/
lemma create_new_version_ok (s : Store α) (v : TreeVersion) (tag desc : Option String)
    (hwf : s.WF) (hcl : EdgesClosed s v.id) :
    ∃ nv s₂, create_new_version s v tag desc = .ok (nv, s₂) ∧
      nv.id = s.nextVersionId ∧ nv.tree_id = v.tree_id ∧
      nv.parent_version_id = some v.id ∧ nv.tag = tag ∧ nv.description = desc ∧
      CloneSpec s v.id s₂ nv.id := by
  obtain ⟨hver, hnode, hedge, hnodup⟩ := hwf
  obtain ⟨out, j, hok, houtmem, hfaE, heq⟩ :=
    create_new_version_ok_of_closed s v tag desc hcl
  refine ⟨_, _, heq, rfl, rfl, rfl, rfl, rfl, ?_, ?_⟩
  · -- nodes of the new version are exactly the cloned rows
    have hfilter : versionNodes
        { s with
          versions := s.versions ++ [⟨s.nextVersionId, v.tree_id, some v.id, tag, desc,
            s.now, some s.now⟩]
          nodes := s.nodes ++ (cloneNodes (versionNodes s v.id) s.nextVersionId
            s.nextNodeId).1
          edges := s.edges ++ out
          nextVersionId := s.nextVersionId + 1
          nextNodeId := (cloneNodes (versionNodes s v.id) s.nextVersionId s.nextNodeId).2.2
          nextEdgeId := j } s.nextVersionId
        = (cloneNodes (versionNodes s v.id) s.nextVersionId s.nextNodeId).1 := by
      have hstep : versionNodes
          { s with
            versions := s.versions ++ [⟨s.nextVersionId, v.tree_id, some v.id, tag, desc,
              s.now, some s.now⟩]
            nodes := s.nodes ++ (cloneNodes (versionNodes s v.id) s.nextVersionId
              s.nextNodeId).1
            edges := s.edges ++ out
            nextVersionId := s.nextVersionId + 1
            nextNodeId := (cloneNodes (versionNodes s v.id) s.nextVersionId s.nextNodeId).2.2
            nextEdgeId := j } s.nextVersionId
          = (s.nodes ++ (cloneNodes (versionNodes s v.id) s.nextVersionId
              s.nextNodeId).1).filter (fun n => n.tree_version_id == s.nextVersionId) := rfl
      rw [hstep, List.filter_append]
      have h₁ : s.nodes.filter (fun n => n.tree_version_id == s.nextVersionId) = [] := by
        rw [List.filter_eq_nil_iff]
        intro n hn
        have h := (hnode n hn).2
        simp only [beq_iff_eq]
        omega
      have h₂ : ((cloneNodes (versionNodes s v.id) s.nextVersionId s.nextNodeId).1).filter
          (fun n => n.tree_version_id == s.nextVersionId)
          = (cloneNodes (versionNodes s v.id) s.nextVersionId s.nextNodeId).1 := by
        rw [List.filter_eq_self]
        intro n hn
        simp only [beq_iff_eq]
        exact cloneNodes_mem (versionNodes s v.id) s.nextVersionId s.nextNodeId n hn
      rw [h₁, h₂, List.nil_append]
    have hresult : List.Forall₂ (fun (src new : TreeNode α) =>
        new.data = src.data ∧ ∀ n ∈ s.nodes, n.id ≠ new.id)
        (versionNodes s v.id)
        (cloneNodes (versionNodes s v.id) s.nextVersionId s.nextNodeId).1 := by
      refine (cloneNodes_forall₂ (versionNodes s v.id) s.nextVersionId s.nextNodeId).imp ?_
      intro a b hab
      refine ⟨hab.1, ?_⟩
      intro n hn hcontra
      have h₁ := (hnode n hn).1
      have h₂ := hab.2.2
      omega
    exact hfilter.symm ▸ hresult
  · -- edges of the new version are exactly the cloned rows
    have hfilter : versionEdges
        { s with
          versions := s.versions ++ [⟨s.nextVersionId, v.tree_id, some v.id, tag, desc,
            s.now, some s.now⟩]
          nodes := s.nodes ++ (cloneNodes (versionNodes s v.id) s.nextVersionId
            s.nextNodeId).1
          edges := s.edges ++ out
          nextVersionId := s.nextVersionId + 1
          nextNodeId := (cloneNodes (versionNodes s v.id) s.nextVersionId s.nextNodeId).2.2
          nextEdgeId := j } s.nextVersionId = out := by
      have hstep : versionEdges
          { s with
            versions := s.versions ++ [⟨s.nextVersionId, v.tree_id, some v.id, tag, desc,
              s.now, some s.now⟩]
            nodes := s.nodes ++ (cloneNodes (versionNodes s v.id) s.nextVersionId
              s.nextNodeId).1
            edges := s.edges ++ out
            nextVersionId := s.nextVersionId + 1
            nextNodeId := (cloneNodes (versionNodes s v.id) s.nextVersionId s.nextNodeId).2.2
            nextEdgeId := j } s.nextVersionId
          = (s.edges ++ out).filter (fun e => e.tree_version_id == s.nextVersionId) := rfl
      rw [hstep, List.filter_append]
      have h₁ : s.edges.filter (fun e => e.tree_version_id == s.nextVersionId) = [] := by
        rw [List.filter_eq_nil_iff]
        intro e he
        have h := (hedge e he).2
        simp only [beq_iff_eq]
        omega
      have h₂ : out.filter (fun e => e.tree_version_id == s.nextVersionId) = out := by
        rw [List.filter_eq_self]
        intro e he
        simp only [beq_iff_eq]
        exact houtmem e he
      rw [h₁, h₂, List.nil_append]
    exact hfilter.symm ▸ hfaE

/-! ### C1 — clone completeness -/

/-- C1: on a well-formed store whose source version's edges are closed
over its own nodes, `create_new_version` succeeds and the new version
holds exactly as many nodes (data-identical, ids fresh with respect to
every node of the old store) and exactly as many edges (data-identical,
endpoints the images of the source endpoints under the remap table built
while cloning the nodes) as the source version. -/
theorem clone_completeness (s : Store α) (v : TreeVersion) (tag desc : Option String)
    (hwf : s.WF) (_hv : v ∈ s.versions) (hcl : EdgesClosed s v.id) :
    ∃ nv s₂, create_new_version s v tag desc = .ok (nv, s₂) ∧
      (versionNodes s₂ nv.id).length = (versionNodes s v.id).length ∧
      (versionEdges s₂ nv.id).length = (versionEdges s v.id).length ∧
      CloneSpec s v.id s₂ nv.id := by
  obtain ⟨nv, s₂, hok, _, _, _, _, _, hspec⟩ := create_new_version_ok s v tag desc hwf hcl
  exact ⟨nv, s₂, hok, hspec.1.length_eq.symm, hspec.2.length_eq.symm, hspec⟩

/-- C1 witness: the clone succeeds on the sample store and meets the
specification there. -/
theorem clone_completeness_witness :
    ∃ nv s₂, create_new_version sampleStore sampleVersion (some "release-v1.0")
        (some "First stable release") = .ok (nv, s₂) ∧
      (versionNodes s₂ nv.id).length = (versionNodes sampleStore sampleVersion.id).length ∧
      (versionEdges s₂ nv.id).length = (versionEdges sampleStore sampleVersion.id).length ∧
      CloneSpec sampleStore sampleVersion.id s₂ nv.id :=
  clone_completeness sampleStore sampleVersion (some "release-v1.0")
    (some "First stable release") (by decide) (by decide) (by decide)

/-! ### C9 — dangling-reference safety of the clone -/

/-- C9: when every edge endpoint of the source version is one of that
version's node ids, the remap lookup never misses and the clone cannot
take the `DanglingReference` branch; when some endpoint is missing from
the source version's node ids (and hence from the remap table), the
clone fails. -/
theorem clone_dangling_safety (s : Store α) (v : TreeVersion) (tag desc : Option String) :
    (EdgesClosed s v.id →
      ∃ nv s₂, create_new_version s v tag desc = .ok (nv, s₂)) ∧
    ((∃ e ∈ versionEdges s v.id,
        e.incoming_node_id ∉ (versionNodes s v.id).map (fun n => n.id) ∨
        e.outgoing_node_id ∉ (versionNodes s v.id).map (fun n => n.id)) →
      ∃ m, create_new_version s v tag desc = .error m) := by
  constructor
  · intro hcl
    obtain ⟨out, j, hok, -, -, heq⟩ := create_new_version_ok_of_closed s v tag desc hcl
    exact ⟨_, _, heq⟩
  · intro hbad
    have hfail : ∃ e ∈ versionEdges s v.id,
        ((cloneNodes (versionNodes s v.id) s.nextVersionId s.nextNodeId).2.1).lookup
          e.incoming_node_id = none ∨
        ((cloneNodes (versionNodes s v.id) s.nextVersionId s.nextNodeId).2.1).lookup
          e.outgoing_node_id = none := by
      obtain ⟨e, he, hcase⟩ := hbad
      refine ⟨e, he, ?_⟩
      rcases hcase with hcase | hcase
      · exact Or.inl (cloneNodes_lookup_none (versionNodes s v.id) s.nextVersionId
          s.nextNodeId hcase)
      · exact Or.inr (cloneNodes_lookup_none (versionNodes s v.id) s.nextVersionId
          s.nextNodeId hcase)
    obtain ⟨m, hm⟩ := cloneEdges_error s.nextVersionId
      (cloneNodes (versionNodes s v.id) s.nextVersionId s.nextNodeId).2.1
      (versionEdges s v.id) s.nextEdgeId hfail
    refine ⟨m, ?_⟩
    rw [create_new_version_eq, hm]

/-- C9 witness: the success branch on the sample store (closed edges),
and the failure branch on a store with a dangling edge. -/
theorem clone_dangling_safety_witness :
    (∃ nv s₂, create_new_version sampleStore sampleVersion none none = .ok (nv, s₂)) ∧
    (∃ m, create_new_version danglingStore
      ⟨1, 1, none, none, none, 0, some 0⟩ none none = .error m) :=
  ⟨(clone_dangling_safety sampleStore sampleVersion none none).1 (by decide),
   (clone_dangling_safety danglingStore ⟨1, 1, none, none, none, 0, some 0⟩ none none).2
     (by decide)⟩

/-! ### C5 and C6 — restore-from-tag and create-tag -/

/-- `head?` of a filtered list: any member satisfying the predicate
guarantees a head, and the head is a member satisfying the predicate. -/
lemma filter_head?_spec {β : Type} (p : β → Bool) (l : List β)
    (hx : ∃ x ∈ l, p x = true) :
    ∃ y, (l.filter p).head? = some y ∧ y ∈ l ∧ p y = true := by
  induction l with
  | nil => simp at hx
  | cons a rest ih =>
    by_cases hpa : p a = true
    · exact ⟨a, by simp [List.filter_cons, hpa], List.mem_cons_self a rest, hpa⟩
    · obtain ⟨x, hxmem, hpx⟩ := hx
      rcases List.mem_cons.mp hxmem with h | h
      · subst h; exact absurd hpx hpa
      · obtain ⟨y, hy, hymem, hpy⟩ := ih ⟨x, h, hpx⟩
        refine ⟨y, ?_, List.mem_cons_of_mem a hymem, hpy⟩
        simp [List.filter_cons, hpa, hy]

/-- Folding `pickLatest` from an incumbent yields a row of the list or the
incumbent, at least as late as the incumbent and as every list row. -/
lemma latestOf_aux (l : List TreeVersion) :
    ∀ w, ∃ m, List.foldl pickLatest (some w) l = some m ∧ (m ∈ l ∨ m = w) ∧
      w.created_at ≤ m.created_at ∧ ∀ x ∈ l, x.created_at ≤ m.created_at := by
  induction l with
  | nil => intro w; exact ⟨w, rfl, Or.inr rfl, Nat.le_refl _, by simp⟩
  | cons v rest ih =>
    intro w
    by_cases hlt : w.created_at < v.created_at
    · obtain ⟨m, hm, hmem, hle, hall⟩ := ih v
      refine ⟨m, ?_, ?_, ?_, ?_⟩
      · simpa [List.foldl_cons, pickLatest, hlt] using hm
      · rcases hmem with h | h
        · exact Or.inl (List.mem_cons_of_mem v h)
        · exact Or.inl (h ▸ List.mem_cons_self v rest)
      · exact Nat.le_trans (Nat.le_of_lt hlt) hle
      · intro x hx
        rcases List.mem_cons.mp hx with h | h
        · exact h ▸ hle
        · exact hall x h
    · obtain ⟨m, hm, hmem, hle, hall⟩ := ih w
      refine ⟨m, ?_, ?_, hle, ?_⟩
      · simpa [List.foldl_cons, pickLatest, hlt] using hm
      · rcases hmem with h | h
        · exact Or.inl (List.mem_cons_of_mem v h)
        · exact Or.inr h
      · intro x hx
        rcases List.mem_cons.mp hx with h | h
        · subst h; exact Nat.le_trans (Nat.le_of_not_lt hlt) hle
        · exact hall x h

/-- `latestOf` of a nonempty list returns a member that is maximal in
`created_at`. -/
lemma latestOf_spec (l : List TreeVersion) :
    ∀ v ∈ l, ∃ m, latestOf l = some m ∧ m ∈ l ∧
      ∀ x ∈ l, x.created_at ≤ m.created_at := by
  intro v hv
  cases l with
  | nil => cases hv
  | cons a rest =>
    obtain ⟨m, hm, hmem, hle, hall⟩ := latestOf_aux rest a
    refine ⟨m, ?_, ?_, ?_⟩
    · simpa [latestOf, List.foldl_cons, pickLatest] using hm
    · rcases hmem with h | h
      · exact List.mem_cons_of_mem a h
      · exact h ▸ List.mem_cons_self a rest
    · intro x hx
      rcases List.mem_cons.mp hx with h | h
      · exact h ▸ hle
      · exact hall x h

/-- C5: whenever the tree holds a version tagged `tag`, `restore_from_tag`
resolves a version of this tree carrying that tag and (when that version's
edges are closed over its nodes, per the data-model invariant) returns a
new untagged version whose parent is the resolved tagged version and whose
node/edge structure is the clone of the tagged version's structure. -/
theorem restore_from_tag_spec (s : Store α) (t : Tree) (tag : String)
    (hwf : s.WF) (hex : ∃ v ∈ s.versions, v.tree_id = t.id ∧ v.tag = some tag) :
    ∃ v₀, get_version_by_tag s t tag = some v₀ ∧ v₀.tree_id = t.id ∧
      v₀.tag = some tag ∧
      (EdgesClosed s v₀.id →
        ∃ nv s₂, restore_from_tag s t tag = .ok (nv, s₂) ∧ nv.tag = none ∧
          nv.parent_version_id = some v₀.id ∧ CloneSpec s v₀.id s₂ nv.id) := by
  obtain ⟨v, hv, hvt, hvtag⟩ := hex
  have hx : ∃ x ∈ s.versions, (x.tree_id == t.id && x.tag == some tag) = true :=
    ⟨v, hv, by simp [hvt, hvtag]⟩
  obtain ⟨v₀, hhead, hmem, hp⟩ := filter_head?_spec _ s.versions hx
  have hp' : v₀.tree_id = t.id ∧ v₀.tag = some tag := by simpa using hp
  have hget : get_version_by_tag s t tag = some v₀ := hhead
  refine ⟨v₀, hget, hp'.1, hp'.2, ?_⟩
  intro hcl
  obtain ⟨nv, s₂, hok, hid, htree, hpar, htagv, hdesc, hspec⟩ :=
    create_new_version_ok s v₀ none (some ("Restored version from tag " ++ tag)) hwf hcl
  refine ⟨nv, s₂, ?_, htagv, hpar, hspec⟩
  unfold restore_from_tag
  rw [hget]
  exact hok

/-- C5 witness: on the sample store, restoring from the tag `"v1.0"`. -/
theorem restore_from_tag_spec_witness :
    ∃ v₀, get_version_by_tag sampleStore sampleTree "v1.0" = some v₀ ∧
      v₀.tree_id = sampleTree.id ∧ v₀.tag = some "v1.0" ∧
      (EdgesClosed sampleStore v₀.id →
        ∃ nv s₂, restore_from_tag sampleStore sampleTree "v1.0" = .ok (nv, s₂) ∧
          nv.tag = none ∧ nv.parent_version_id = some v₀.id ∧
          CloneSpec sampleStore v₀.id s₂ nv.id) :=
  restore_from_tag_spec sampleStore sampleTree "v1.0" (by decide) (by decide)

/-- C6: `create_tag` fails with the `"No versions exist to tag."` error —
creating nothing, since no store results from an uncommitted transaction —
exactly when the tree has no versions; otherwise it resolves the version
with maximal `created_at` and (under the data-model invariant) clones it,
the returned version carrying the requested tag and the latest version as
parent. -/
theorem create_tag_spec (s : Store α) (t : Tree) (tag desc : String) :
    ((∀ v ∈ s.versions, v.tree_id ≠ t.id) →
      create_tag s t tag desc = .error "No versions exist to tag.") ∧
    (∀ v₀ ∈ s.versions, v₀.tree_id = t.id →
      ∃ latest, get_latest_version s t = some latest ∧ latest ∈ s.versions ∧
        latest.tree_id = t.id ∧
        (∀ w ∈ s.versions, w.tree_id = t.id → w.created_at ≤ latest.created_at) ∧
        (s.WF → EdgesClosed s latest.id →
          ∃ nv s₂, create_tag s t tag desc = .ok (nv, s₂) ∧ nv.tag = some tag ∧
            nv.parent_version_id = some latest.id ∧ CloneSpec s latest.id s₂ nv.id)) := by
  constructor
  · intro hno
    have hfil : s.versions.filter (fun v => v.tree_id == t.id) = [] := by
      rw [List.filter_eq_nil_iff]
      intro v hv
      simpa using hno v hv
    have hget : get_latest_version s t = none := by
      unfold get_latest_version
      rw [hfil]
      rfl
    unfold create_tag
    rw [hget]
  · intro v₀ hv₀ ht₀
    have hvfil : v₀ ∈ s.versions.filter (fun v => v.tree_id == t.id) :=
      List.mem_filter.mpr ⟨hv₀, by simp [ht₀]⟩
    obtain ⟨m, hm, hmem, hall⟩ :=
      latestOf_spec (s.versions.filter (fun v => v.tree_id == t.id)) v₀ hvfil
    have hget : get_latest_version s t = some m := hm
    have hmmem : m ∈ s.versions := (List.mem_filter.mp hmem).1
    have hmtree : m.tree_id = t.id := by
      have h := (List.mem_filter.mp hmem).2
      simpa using h
    refine ⟨m, hget, hmmem, hmtree, ?_, ?_⟩
    · intro w hw hwt
      exact hall w (List.mem_filter.mpr ⟨hw, by simp [hwt]⟩)
    · intro hwf hcl
      obtain ⟨nv, s₂, hok, hid, htree, hpar, htagv, hdesc, hspec⟩ :=
        create_new_version_ok s m (some tag) (some desc) hwf hcl
      refine ⟨nv, s₂, ?_, htagv, hpar, hspec⟩
      unfold create_tag
      rw [hget]
      exact hok

/-- C6 witness: the failure branch on a store whose only tree has no
versions, and the success branch on the sample store. -/
theorem create_tag_spec_witness :
    create_tag
        (⟨[⟨1, "Bare", 0⟩], [], ([] : List (TreeNode Nat)), [], 1, 1, 1, 0⟩ : Store Nat)
        ⟨1, "Bare", 0⟩ "t" "d" = .error "No versions exist to tag." ∧
    (∃ latest, get_latest_version sampleStore sampleTree = some latest ∧
      latest ∈ sampleStore.versions ∧ latest.tree_id = sampleTree.id ∧
      (∀ w ∈ sampleStore.versions, w.tree_id = sampleTree.id →
        w.created_at ≤ latest.created_at) ∧
      (sampleStore.WF → EdgesClosed sampleStore latest.id →
        ∃ nv s₂, create_tag sampleStore sampleTree "release-v1.0" "First stable release"
            = .ok (nv, s₂) ∧ nv.tag = some "release-v1.0" ∧
          nv.parent_version_id = some latest.id ∧
          CloneSpec sampleStore latest.id s₂ nv.id)) :=
  ⟨(create_tag_spec
      (⟨[⟨1, "Bare", 0⟩], [], ([] : List (TreeNode Nat)), [], 1, 1, 1, 0⟩ : Store Nat)
      ⟨1, "Bare", 0⟩ "t" "d").1 (by decide),
   (create_tag_spec sampleStore sampleTree "release-v1.0" "First stable release").2
     sampleVersion (by decide) (by decide)⟩

/-! ### The depth-first search of `find_path` -/

/-- Unfolding lemma for the empty edge loop: falling through the loop pops
the current node from the path and reports failure. -/
lemma dfsLoop_nil (next : Nat → List Nat → List Nat → Option (Bool × List Nat × List Nat))
    (v p : List Nat) :
    dfsLoop (α := α) next [] v p = some (false, v, p.dropLast) := rfl

/-- Unfolding lemma for one iteration of the edge loop. -/
lemma dfsLoop_cons (next : Nat → List Nat → List Nat → Option (Bool × List Nat × List Nat))
    (e : TreeEdge α) (rest : List (TreeEdge α)) (v p : List Nat) :
    dfsLoop next (e :: rest) v p =
      match next e.outgoing_node_id v p with
      | none => none
      | some (true, v1, p1) => some (true, v1, p1)
      | some (false, v1, p1) => dfsLoop next rest v1 p1 := rfl

/-- Unfolding lemma for `dfs` with positive fuel. -/
lemma dfs_succ (edges : List (TreeEdge α)) (endId fuel n : Nat) (v p : List Nat) :
    dfs edges endId (fuel + 1) n v p =
      if n ∈ v then some (false, v, p)
      else if n = endId then some (true, n :: v, p ++ [n])
      else dfsLoop (fun n1 v1 p1 => dfs edges endId fuel n1 v1 p1)
        (outEdges edges n) (n :: v) (p ++ [n]) := rfl

/-- Edges selected by `outEdges` belong to the edge set and leave the
given node. -/
lemma outEdges_mem (edges : List (TreeEdge α)) (n : Nat) :
    ∀ e ∈ outEdges edges n, e ∈ edges ∧ e.incoming_node_id = n := by
  intro e he
  have h := List.mem_filter.mp he
  exact ⟨h.1, by simpa using h.2⟩

/-- The edge loop only ever extends the visited list. -/
lemma dfsLoop_suffix (next : Nat → List Nat → List Nat → Option (Bool × List Nat × List Nat))
    (hnext : ∀ n v p r, next n v p = some r → v <:+ r.2.1) :
    ∀ (todo : List (TreeEdge α)) (v p : List Nat) r,
      dfsLoop next todo v p = some r → v <:+ r.2.1 := by
  intro todo
  induction todo with
  | nil =>
    intro v p r h
    rw [dfsLoop_nil] at h
    cases h
    exact List.suffix_refl v
  | cons e rest ih =>
    intro v p r h
    rw [dfsLoop_cons] at h
    cases hn : next e.outgoing_node_id v p with
    | none => rw [hn] at h; cases h
    | some q =>
      obtain ⟨b, v1, p1⟩ := q
      rw [hn] at h
      cases b with
      | true =>
        cases h
        exact hnext _ _ _ _ hn
      | false =>
        exact List.IsSuffix.trans (hnext _ _ _ _ hn) (ih v1 p1 r h)

/-- `dfs` only ever extends the visited list. -/
lemma dfs_suffix (edges : List (TreeEdge α)) (endId : Nat) :
    ∀ fuel n v p r, dfs edges endId fuel n v p = some r → v <:+ r.2.1 := by
  intro fuel
  induction fuel with
  | zero => intro n v p r h; cases h
  | succ f ih =>
    intro n v p r h
    rw [dfs_succ] at h
    split_ifs at h with h1 h2
    · cases h; exact List.suffix_refl v
    · cases h; exact List.suffix_cons n v
    · exact List.IsSuffix.trans (List.suffix_cons n v)
        (dfsLoop_suffix _ (ih) (outEdges edges n) (n :: v) (p ++ [n]) r h)

/-- A failing edge loop restores the path it was given, minus the pop. -/
lemma dfsLoop_false_path
    (next : Nat → List Nat → List Nat → Option (Bool × List Nat × List Nat))
    (hnext : ∀ n v p v1 p1, next n v p = some (false, v1, p1) → p1 = p) :
    ∀ (todo : List (TreeEdge α)) (v p : List Nat) v1 p1,
      dfsLoop next todo v p = some (false, v1, p1) → p1 = p.dropLast := by
  intro todo
  induction todo with
  | nil =>
    intro v p v1 p1 h
    rw [dfsLoop_nil] at h
    cases h
    rfl
  | cons e rest ih =>
    intro v p v1 p1 h
    rw [dfsLoop_cons] at h
    cases hn : next e.outgoing_node_id v p with
    | none => rw [hn] at h; cases h
    | some q =>
      obtain ⟨b, v2, p2⟩ := q
      rw [hn] at h
      cases b with
      | true => cases h
      | false =>
        have hp2 : p2 = p := hnext _ _ _ _ _ hn
        rw [← hp2]
        exact ih v2 p2 v1 p1 h

/-- A failing `dfs` call leaves the path exactly as it found it. -/
lemma dfs_false_path (edges : List (TreeEdge α)) (endId : Nat) :
    ∀ fuel n v p v1 p1, dfs edges endId fuel n v p = some (false, v1, p1) → p1 = p := by
  intro fuel
  induction fuel with
  | zero => intro n v p v1 p1 h; cases h
  | succ f ih =>
    intro n v p v1 p1 h
    rw [dfs_succ] at h
    split_ifs at h with h1 h2
    · cases h; rfl
    · cases h
    · have h3 := dfsLoop_false_path _ (fun n2 v2 p2 v3 p3 => ih n2 v2 p2 v3 p3)
        (outEdges edges n) (n :: v) (p ++ [n]) v1 p1 h
      rw [h3, List.dropLast_concat]

/-- Extending a chain by one related element. -/
lemma chain'_append_singleton {R : Nat → Nat → Prop} {l : List Nat} {m b : Nat}
    (hc : List.Chain' R l) (hl : l.getLast? = some m) (hr : R m b) :
    List.Chain' R (l ++ [b]) := by
  rw [List.chain'_append]
  refine ⟨hc, List.chain'_singleton b, ?_⟩
  intro x hx y hy
  have hxm : x = m := by
    rw [hl] at hx
    exact (Option.mem_some_iff.mp hx).symm
  have hyb : y = b := by
    simp only [List.head?_cons, Option.mem_some_iff] at hy
    exact hy.symm
  rw [hxm, hyb]
  exact hr

/-- A successful edge loop returns a chain extending the incoming path and
ending at the target, provided the incoming path is a chain ending at the
node whose outgoing edges are being explored. -/
lemma dfsLoop_true_chain (edges : List (TreeEdge α)) (endId : Nat)
    (next : Nat → List Nat → List Nat → Option (Bool × List Nat × List Nat))
    (hnext_true : ∀ n v p v1 p1, List.Chain' (Adj edges) (p ++ [n]) →
      next n v p = some (true, v1, p1) →
      List.Chain' (Adj edges) p1 ∧ p1.getLast? = some endId ∧ ∃ t, p1 = p ++ n :: t)
    (hnext_false : ∀ n v p v1 p1, next n v p = some (false, v1, p1) → p1 = p) :
    ∀ (todo : List (TreeEdge α)) (m : Nat) (v p : List Nat) v1 p1,
      (∀ e ∈ todo, e ∈ edges ∧ e.incoming_node_id = m) →
      List.Chain' (Adj edges) p → p.getLast? = some m →
      dfsLoop next todo v p = some (true, v1, p1) →
      List.Chain' (Adj edges) p1 ∧ p1.getLast? = some endId ∧ ∃ t, p1 = p ++ t := by
  intro todo
  induction todo with
  | nil =>
    intro m v p v1 p1 _ _ _ h
    rw [dfsLoop_nil] at h
    cases h
  | cons e rest ih =>
    intro m v p v1 p1 htodo hchain hlast h
    rw [dfsLoop_cons] at h
    cases hn : next e.outgoing_node_id v p with
    | none => rw [hn] at h; cases h
    | some q =>
      obtain ⟨b, v2, p2⟩ := q
      rw [hn] at h
      cases b with
      | true =>
        cases h
        have hadj : Adj edges m e.outgoing_node_id :=
          ⟨e, (htodo e (List.mem_cons_self e rest)).1,
            (htodo e (List.mem_cons_self e rest)).2, rfl⟩
        have hchain' : List.Chain' (Adj edges) (p ++ [e.outgoing_node_id]) :=
          chain'_append_singleton hchain hlast hadj
        obtain ⟨hc, hl, t, ht⟩ := hnext_true _ _ _ _ _ hchain' hn
        exact ⟨hc, hl, e.outgoing_node_id :: t, ht⟩
      | false =>
        have hp2 : p2 = p := hnext_false _ _ _ _ _ hn
        subst hp2
        exact ih m v2 p2 v1 p1
          (fun e' he' => htodo e' (List.mem_cons_of_mem e he')) hchain hlast h

/-- A successful `dfs` call returns a chain that extends the incoming path
with the current node and ends at the target. -/
lemma dfs_true_chain (edges : List (TreeEdge α)) (endId : Nat) :
    ∀ fuel n v p v1 p1, List.Chain' (Adj edges) (p ++ [n]) →
      dfs edges endId fuel n v p = some (true, v1, p1) →
      List.Chain' (Adj edges) p1 ∧ p1.getLast? = some endId ∧
        ∃ t, p1 = p ++ n :: t := by
  intro fuel
  induction fuel with
  | zero => intro n v p v1 p1 _ h; cases h
  | succ f ih =>
    intro n v p v1 p1 hchain h
    rw [dfs_succ] at h
    split_ifs at h with h1 h2
    · cases h
    · cases h
      refine ⟨hchain, ?_, [], rfl⟩
      rw [List.getLast?_concat, h2]
    · have hlast : (p ++ [n]).getLast? = some n := by
        rw [List.getLast?_concat]
      obtain ⟨hc, hl, t, ht⟩ := dfsLoop_true_chain edges endId _
        (fun n2 v2 p2 v3 p3 hch hn => ih n2 v2 p2 v3 p3 hch hn)
        (fun n2 v2 p2 v3 p3 hn => dfs_false_path edges endId f n2 v2 p2 v3 p3 hn)
        (outEdges edges n) n (n :: v) (p ++ [n]) v1 p1
        (outEdges_mem edges n) hchain hlast h
      refine ⟨hc, hl, t, ?_⟩
      rw [ht, List.append_assoc]
      rfl

/-- A failing edge loop has explored the target of every pending edge, and
every newly visited node is fully explored (its successors are visited)
and is not the target. -/
lemma dfsLoop_false_closed (edges : List (TreeEdge α)) (endId : Nat)
    (next : Nat → List Nat → List Nat → Option (Bool × List Nat × List Nat))
    (hnext_suffix : ∀ n v p r, next n v p = some r → v <:+ r.2.1)
    (hnext_closed : ∀ n v p v1 p1, next n v p = some (false, v1, p1) →
      n ∈ v1 ∧ ∀ m ∈ v1, m ∉ v → m ≠ endId ∧ ∀ k, Adj edges m k → k ∈ v1) :
    ∀ (todo : List (TreeEdge α)) (v p : List Nat) v1 p1,
      dfsLoop next todo v p = some (false, v1, p1) →
      v <:+ v1 ∧ (∀ e ∈ todo, e.outgoing_node_id ∈ v1) ∧
      (∀ m ∈ v1, m ∉ v → m ≠ endId ∧ ∀ k, Adj edges m k → k ∈ v1) := by
  intro todo
  induction todo with
  | nil =>
    intro v p v1 p1 h
    rw [dfsLoop_nil] at h
    cases h
    exact ⟨List.suffix_refl v, by simp, fun m hm hnm => absurd hm hnm⟩
  | cons e rest ih =>
    intro v p v1 p1 h
    rw [dfsLoop_cons] at h
    cases hn : next e.outgoing_node_id v p with
    | none => rw [hn] at h; cases h
    | some q =>
      obtain ⟨b, v2, p2⟩ := q
      rw [hn] at h
      cases b with
      | true => cases h
      | false =>
        obtain ⟨hev2, hcl2⟩ := hnext_closed _ _ _ _ _ hn
        have hsuf2 : v <:+ v2 := hnext_suffix _ _ _ _ hn
        obtain ⟨hsuf1, hout1, hcl1⟩ := ih v2 p2 v1 p1 h
        refine ⟨hsuf2.trans hsuf1, ?_, ?_⟩
        · intro e' he'
          rcases List.mem_cons.mp he' with he' | he'
          · exact he' ▸ hsuf1.subset hev2
          · exact hout1 e' he'
        · intro m hm hmv
          by_cases hm2 : m ∈ v2
          · have h2 := hcl2 m hm2 hmv
            exact ⟨h2.1, fun k hk => hsuf1.subset (h2.2 k hk)⟩
          · exact hcl1 m hm hm2

/-- A failing `dfs` call has visited the node it was called on, and every
newly visited node is fully explored and is not the target. -/
lemma dfs_false_closed (edges : List (TreeEdge α)) (endId : Nat) :
    ∀ fuel n v p v1 p1, dfs edges endId fuel n v p = some (false, v1, p1) →
      n ∈ v1 ∧ ∀ m ∈ v1, m ∉ v → m ≠ endId ∧ ∀ k, Adj edges m k → k ∈ v1 := by
  intro fuel
  induction fuel with
  | zero => intro n v p v1 p1 h; cases h
  | succ f ih =>
    intro n v p v1 p1 h
    rw [dfs_succ] at h
    split_ifs at h with h1 h2
    · cases h
      exact ⟨h1, fun m hm hnm => absurd hm hnm⟩
    · cases h
    · obtain ⟨hsuf, hout, hcl⟩ := dfsLoop_false_closed edges endId _
        (fun n2 v2 p2 r hn => dfs_suffix edges endId f n2 v2 p2 r hn)
        (fun n2 v2 p2 v3 p3 hn => ih n2 v2 p2 v3 p3 hn)
        (outEdges edges n) (n :: v) (p ++ [n]) v1 p1 h
      have hnv1 : n ∈ v1 := hsuf.subset (List.mem_cons_self n v)
      refine ⟨hnv1, ?_⟩
      intro m hm hmv
      by_cases hmn : m = n
      · subst hmn
        refine ⟨h2, ?_⟩
        intro k hk
        obtain ⟨e, he, hin, hout'⟩ := hk
        have hef : e ∈ outEdges edges m := by
          rw [outEdges, List.mem_filter]
          exact ⟨he, by simp [hin]⟩
        exact hout' ▸ hout e hef
      · have hmnv : m ∉ n :: v := by
          rw [List.mem_cons]
          exact fun hc => hc.elim hmn hmv
        exact hcl m hm hmnv

/-- The outgoing node ids of an edge list. -/
def outIds (edges : List (TreeEdge α)) : List Nat :=
  edges.map (fun e => e.outgoing_node_id)

/-- The potential DFS targets not yet visited. -/
def unseen (edges : List (TreeEdge α)) (visited : List Nat) : Finset Nat :=
  (outIds edges).toFinset \ visited.toFinset

/-- Growing the visited list shrinks the unseen set. -/
lemma unseen_mono (edges : List (TreeEdge α)) {v1 v2 : List Nat}
    (h : ∀ x ∈ v1, x ∈ v2) : unseen edges v2 ⊆ unseen edges v1 := by
  intro x hx
  rw [unseen, Finset.mem_sdiff, List.mem_toFinset] at hx ⊢
  exact ⟨hx.1, fun hc => hx.2 (List.mem_toFinset.mpr (h x (List.mem_toFinset.mp hc)))⟩

/-- Marking one unseen node as visited drops the unseen count by one. -/
lemma unseen_card_cons (edges : List (TreeEdge α)) (v : List Nat) {x : Nat}
    (hx : x ∈ unseen edges v) :
    (unseen edges (x :: v)).card + 1 = (unseen edges v).card := by
  have hset : unseen edges (x :: v) = (unseen edges v).erase x := by
    ext y
    simp only [unseen, Finset.mem_sdiff, List.mem_toFinset, Finset.mem_erase,
      List.mem_cons]
    tauto
  rw [hset, Finset.card_erase_of_mem hx]
  have hpos : 0 < (unseen edges v).card := Finset.card_pos.mpr ⟨x, hx⟩
  omega

/-- With enough fuel relative to the unseen count, the edge loop cannot
run out of fuel. -/
lemma dfsLoop_isSome (edges : List (TreeEdge α)) (endId f : Nat)
    (ihdfs : ∀ n v p, (unseen edges (n :: v)).card + 2 ≤ f →
      (dfs edges endId f n v p).isSome = true) :
    ∀ (todo : List (TreeEdge α)) (v p : List Nat), (∀ e ∈ todo, e ∈ edges) →
      (unseen edges v).card + 1 ≤ f →
      (dfsLoop (fun n1 v1 p1 => dfs edges endId f n1 v1 p1) todo v p).isSome = true := by
  intro todo
  induction todo with
  | nil => intro v p _ _; rfl
  | cons e rest ihl =>
    intro v p htodo hcard
    rw [dfsLoop_cons]
    by_cases hev : e.outgoing_node_id ∈ v
    · obtain ⟨g, rfl⟩ : ∃ g, f = g + 1 := ⟨f - 1, by omega⟩
      have hd : dfs edges endId (g + 1) e.outgoing_node_id v p = some (false, v, p) := by
        rw [dfs_succ]
        simp [hev]
      rw [hd]
      exact ihl v p (fun e' he' => htodo e' (List.mem_cons_of_mem e he')) hcard
    · have hmem : e.outgoing_node_id ∈ unseen edges v := by
        rw [unseen, Finset.mem_sdiff, List.mem_toFinset, List.mem_toFinset]
        refine ⟨?_, fun hc => hev hc⟩
        rw [outIds, List.mem_map]
        exact ⟨e, htodo e (List.mem_cons_self e rest), rfl⟩
      have hcard2 := unseen_card_cons edges v hmem
      have hd := ihdfs e.outgoing_node_id v p (by omega)
      cases hd' : dfs edges endId f e.outgoing_node_id v p with
      | none => rw [hd'] at hd; cases hd
      | some q =>
        obtain ⟨b, v2, p2⟩ := q
        cases b with
        | true => rfl
        | false =>
          have hsub : ∀ x ∈ v, x ∈ v2 :=
            fun x hx => (dfs_suffix edges endId f _ _ _ _ hd').subset hx
          have hle : (unseen edges v2).card ≤ (unseen edges v).card :=
            Finset.card_le_card (unseen_mono edges hsub)
          exact ihl v2 p2 (fun e' he' => htodo e' (List.mem_cons_of_mem e he'))
            (by omega)

/-- With enough fuel relative to the unseen count, `dfs` cannot run out of
fuel. -/
lemma dfs_isSome (edges : List (TreeEdge α)) (endId : Nat) :
    ∀ fuel n v p, (unseen edges (n :: v)).card + 2 ≤ fuel →
      (dfs edges endId fuel n v p).isSome = true := by
  intro fuel
  induction fuel with
  | zero => intro n v p h; omega
  | succ f ih =>
    intro n v p h
    rw [dfs_succ]
    split_ifs with h1 h2
    · rfl
    · rfl
    · exact dfsLoop_isSome edges endId f ih (outEdges edges n) (n :: v) (p ++ [n])
        (fun e he => (outEdges_mem edges n e he).1) (by omega)

/-- A chain from `a` to `b` witnesses reachability. -/
lemma chain'_head_last_reaches (edges : List (TreeEdge α)) :
    ∀ (l : List Nat) (a b : Nat), List.Chain' (Adj edges) l →
      l.head? = some a → l.getLast? = some b → Reaches edges a b := by
  intro l
  induction l with
  | nil => intro a b _ hh _; cases hh
  | cons x rest ih =>
    intro a b hc hh hl
    have hax : x = a := by
      rw [List.head?_cons] at hh
      exact Option.some.inj hh
    cases rest with
    | nil =>
      have hxb : x = b := by
        simp only [List.getLast?_singleton] at hl
        exact Option.some.inj hl
      rw [← hax, ← hxb]
      exact Reaches.refl x
    | cons y rest2 =>
      have hadj : Adj edges x y := (List.chain'_cons.mp hc).1
      have hc2 : List.Chain' (Adj edges) (y :: rest2) := (List.chain'_cons.mp hc).2
      have hl2 : (y :: rest2).getLast? = some b := by
        rw [List.getLast?_cons_cons] at hl
        exact hl
      exact hax ▸ Reaches.step hadj (ih y b hc2 rfl hl2)

/-- A set of nodes closed under edges contains everything reachable from
its members. -/
lemma reaches_mem_of_closed (edges : List (TreeEdge α)) (V : List Nat)
    (hclosed : ∀ m ∈ V, ∀ k, Adj edges m k → k ∈ V) :
    ∀ a b, Reaches edges a b → a ∈ V → b ∈ V := by
  intro a b h
  induction h with
  | refl a => exact fun ha => ha
  | step hadj hr ih => exact fun ha => ih (hclosed _ ha _ hadj)

/-- The collected behaviour of `find_path` on an arbitrary edge list: the
DFS boolean result holds exactly when the target is reachable from the
start along outgoing edges, the returned path is always a chain of edges,
and a failing search returns the empty path. -/
lemma find_path_spec_aux (edges : List (TreeEdge α)) (a b : Nat) :
    ((find_path edges a b).1 = true ↔ Reaches edges a b) ∧
    List.Chain' (Adj edges) (find_path edges a b).2 ∧
    ((find_path edges a b).1 = false → (find_path edges a b).2 = []) := by
  have hfuel : (unseen edges (a :: ([] : List Nat))).card + 2 ≤ edges.length + 2 := by
    have h1 : (unseen edges [a]).card ≤ (outIds edges).toFinset.card :=
      Finset.card_le_card (Finset.sdiff_subset)
    have h2 : (outIds edges).toFinset.card ≤ (outIds edges).length :=
      (outIds edges).toFinset_card_le
    have h3 : (outIds edges).length = edges.length := List.length_map edges _
    omega
  have hsome := dfs_isSome edges b (edges.length + 2) a [] [] hfuel
  cases hd : dfs edges b (edges.length + 2) a [] [] with
  | none => rw [hd] at hsome; cases hsome
  | some q =>
    obtain ⟨found, V, p⟩ := q
    have hfp : find_path edges a b = (found, p) := by
      unfold find_path
      rw [hd]
    cases found with
    | true =>
      have hch : List.Chain' (Adj edges) (([] : List Nat) ++ [a]) := by
        simp
      obtain ⟨hc, hl, t, ht⟩ :=
        dfs_true_chain edges b (edges.length + 2) a [] [] V p hch hd
      rw [hfp]
      have hh : p.head? = some a := by rw [ht]; rfl
      refine ⟨⟨fun _ => ?_, fun _ => rfl⟩, hc, fun hcontra => (by cases hcontra)⟩
      exact chain'_head_last_reaches edges p a b hc hh hl
    | false =>
      have hp : p = [] := dfs_false_path edges b (edges.length + 2) a [] [] V p hd
      obtain ⟨haV, hcl⟩ := dfs_false_closed edges b (edges.length + 2) a [] [] V p hd
      rw [hfp, hp]
      refine ⟨⟨fun hcontra => (by cases hcontra), fun hreach => ?_⟩,
        List.chain'_nil, fun _ => rfl⟩
      exfalso
      have hbV : b ∈ V := reaches_mem_of_closed edges V
        (fun m hm k hk => (hcl m hm (List.not_mem_nil m)).2 k hk) a b hreach haV
      exact absurd rfl ((hcl b hbV (List.not_mem_nil b)).1)

/-! ### C2 — path-finding correctness -/

/-- C2: over any version's edge set, `find_path` reports success exactly
when the end node is reachable from the start node by following outgoing
edges, and every consecutive pair of node ids in the returned path is
connected by an edge of that version. -/
theorem find_path_correct (s : Store α) (vid : Nat) (a b : Nat) :
    ((find_path (versionEdges s vid) a b).1 = true ↔ Reaches (versionEdges s vid) a b) ∧
    List.Chain' (Adj (versionEdges s vid)) (find_path (versionEdges s vid) a b).2 :=
  ⟨(find_path_spec_aux (versionEdges s vid) a b).1,
   (find_path_spec_aux (versionEdges s vid) a b).2.1⟩

/-! ### C10 — `find_path` checks no node ids -/

/-- `find_path` from a node to itself immediately succeeds with the
singleton path, whatever the edge set. -/
lemma find_path_self (edges : List (TreeEdge α)) (a : Nat) :
    find_path edges a a = (true, [a]) := by
  unfold find_path
  have hd : dfs edges a (edges.length + 2) a [] [] = some (true, [a], [a]) := by
    have hstep : edges.length + 2 = (edges.length + 1) + 1 := rfl
    rw [hstep, dfs_succ]
    simp
  rw [hd]

/-- C10: `find_path` never consults the node table — from any id `a` to
itself it returns `([a], found)` even when no node with id `a` exists in
any version, and when the end is unreachable from a distinct start the
returned path is exactly empty, never a partial prefix. -/
theorem find_path_unchecked_ids (s : Store α) (vid : Nat) (a b : Nat) :
    ((∀ n ∈ s.nodes, n.id ≠ a) → find_path (versionEdges s vid) a a = (true, [a])) ∧
    (a ≠ b → ¬ Reaches (versionEdges s vid) a b →
      (find_path (versionEdges s vid) a b).2 = []) := by
  refine ⟨fun _ => find_path_self _ a, fun hab hnr => ?_⟩
  have haux := find_path_spec_aux (versionEdges s vid) a b
  have hfalse : (find_path (versionEdges s vid) a b).1 = false := by
    cases hv : (find_path (versionEdges s vid) a b).1 with
    | false => rfl
    | true => exact absurd (haux.1.mp hv) hnr
  exact haux.2.2 hfalse

/-- C10 witness: in a store with no nodes at all, `find_path 1 1` still
returns `(true, [1])`, and `find_path 1 2` returns the empty path. -/
theorem find_path_unchecked_ids_witness :
    find_path (versionEdges (⟨[], [], ([] : List (TreeNode Nat)), [], 1, 1, 1, 0⟩ :
        Store Nat) 1) 1 1 = (true, [1]) ∧
    (find_path (versionEdges (⟨[], [], ([] : List (TreeNode Nat)), [], 1, 1, 1, 0⟩ :
        Store Nat) 1) 1 2).2 = [] := by
  constructor
  · exact (find_path_unchecked_ids
      (⟨[], [], ([] : List (TreeNode Nat)), [], 1, 1, 1, 0⟩ : Store Nat) 1 1 1).1
      (by decide)
  · refine (find_path_unchecked_ids
      (⟨[], [], ([] : List (TreeNode Nat)), [], 1, 1, 1, 0⟩ : Store Nat) 1 1 2).2
      (by decide) ?_
    intro h
    cases h with
    | step hadj hr =>
      obtain ⟨e, he, -⟩ := hadj
      simp [versionEdges] at he

/-- C8 amended witness: the error branch with the absent node 5, and the
success branch between the existing nodes 1 and 2 of the sample store. -/
theorem add_edge_spec_witness :
    add_edge sampleStore sampleVersion 5 2 0
      = .error "One or both nodes do not exist in this version" ∧
    (∃ e s₂, add_edge sampleStore sampleVersion 1 2 42 = .ok (e, s₂) ∧
      e.incoming_node_id = 1 ∧ e.outgoing_node_id = 2 ∧ e.data = 42 ∧
      e.tree_version_id = sampleVersion.id ∧
      s₂.nodes = sampleStore.nodes ∧ s₂.versions = sampleStore.versions ∧
      s₂.trees = sampleStore.trees ∧ s₂.edges = sampleStore.edges ++ [e]) :=
  ⟨(add_edge_spec sampleStore sampleVersion 5 2 0).1 (Or.inl (by decide)),
   (add_edge_spec sampleStore sampleVersion 1 2 42).2 (by decide) (by decide)⟩

end DbTree
